import Mathlib

/-!
Shallow embedding of the data-transformation layer of the gauge-chart
visualization extension (`src/utils.js`), together with theorems checking
the spec's claims about it.

Modelling conventions:
* A JS `DataValue` is opaque except for its `value` property, which is the
  string the key-building code concatenates; we model it as a structure
  holding that string.
* A JS property access that may yield `undefined` is modelled as an
  `Option`; dereferencing `undefined` (e.g. `.value` on a missing field)
  is a thrown `TypeError`, modelled by an `Option`-valued function result
  (`none` = the call throws).
* The synthetic `$tupleId` property of a row is modelled as a separate
  structure field, apart from the field-name-to-value cells.
* The IEEE-754 arithmetic of the fog computation is modelled over `ℚ`
  with the source's decimal literals as exact rationals; for every channel
  value 0..255 and both blend factors the floor of `(1 - factor) * channel`
  agrees between double arithmetic and exact rational arithmetic, so the
  claims decided here are insensitive to the difference.
* Host I/O (`await`-ing the page reader, the visual-spec fetch, the
  selection fetch) is modelled by passing the fetched values directly.
-/

namespace GaugeChart

/-- A data cell as used by this layer: only its `value` property is read
(string-concatenated into composite keys). -/
structure DataValue where
  value : String
deriving DecidableEq

/-- A JS expression that is either a `DataValue` or `undefined`. -/
abbrev Cell := Option DataValue

/-- A column descriptor of a data-table page: a field name and a positional
index into the page's raw value rows. -/
structure Column where
  fieldName : String
  index : Nat
deriving DecidableEq

/-- One page of summary data: column descriptors plus the 2-D value grid
`data[rowIndex][columnIndex]`. -/
structure DataTablePage where
  columns : List Column
  data : List (List DataValue)
deriving DecidableEq

/-- A named row: the `$tupleId` property plus the cells written by
`convertToListOfNamedRows` (field name ↦ cell, later writes shadowing
earlier ones, as for JS object assignment). -/
structure Row where
  tupleId : Nat
  cells : List (String × Cell)
deriving DecidableEq

/-- JS object property read over the written bindings: the latest binding
for the name wins (it may itself hold `undefined`); a name never written
reads as `undefined`. -/
def jsGet (cells : List (String × Cell)) (name : String) : Cell :=
  match cells.reverse.find? (fun c => c.1 == name) with
  | some c => c.2
  | none => none

/-- Property read `row[name]` (for the named cells; `$tupleId` is held
separately). -/
def Row.get (r : Row) (name : String) : Cell :=
  jsGet r.cells name

/-- `convertToListOfNamedRows` from `src/utils.js`: each grid row `i`
becomes `{ $tupleId: i + 1 }` extended with
`row[columns[j].fieldName] = data[i][columns[j].index]` for every column. -/
def convertToListOfNamedRows (dataTablePage : DataTablePage) : List Row :=
  dataTablePage.data.enum.map fun ir =>
    { tupleId := ir.1 + 1
      cells := dataTablePage.columns.map fun c => (c.fieldName, ir.2.get? c.index) }

/-- `getSummaryDataTable` from `src/utils.js`, with the paged reader
modelled as the list of pages it yields in order: the per-page named rows
are concatenated with `rows = rows.concat(...)`. -/
def getSummaryDataTable (pages : List DataTablePage) : List Row :=
  pages.foldl (fun rows p => rows ++ convertToListOfNamedRows p) []

/-- The argument of `findIdsOfMarks`: `selectedMarks.data` is a collection
of data tables, one row per selected mark. -/
structure SelectedMarks where
  data : List DataTablePage
deriving DecidableEq

/-- The composite-key loop of `findIdsOfMarks`:
`key += row[col.fieldName].value + '\x00'` over the columns in order.
`none` models the `TypeError` thrown when `row[col.fieldName]` is
`undefined`. -/
def buildKeyFrom (row : Row) : List Column → String → Option String
  | [], key => some key
  | col :: cols, key =>
    match row.get col.fieldName with
    | none => none
    | some dv => buildKeyFrom row cols (key ++ dv.value ++ "\x00")

/-- Composite key of a row over the given columns (starting from the empty
string, as in the source). -/
def buildKey (columns : List Column) (row : Row) : Option String :=
  buildKeyFrom row columns ""

/-- Keys of a list of rows; `none` as soon as any row's key computation
throws. -/
def buildKeys (columns : List Column) : List Row → Option (List String)
  | [] => some []
  | row :: rows =>
    match buildKey columns row, buildKeys columns rows with
    | some k, some ks => some (k :: ks)
    | _, _ => none

/-- The second loop of `findIdsOfMarks`: walk the marks' keys with the
`tupleId` counter, adding the counter to the result set whenever the key is
present among the selected keys (`selectedMarkMap.has(key)`). -/
def collectSelectedIds (selKeys : List String) : List String → Nat → Finset Nat
  | [], _ => ∅
  | k :: ks, tupleId =>
    if k ∈ selKeys then insert tupleId (collectSelectedIds selKeys ks (tupleId + 1))
    else collectSelectedIds selKeys ks (tupleId + 1)

/-- `findIdsOfMarks` from `src/utils.js`. Returns `none` when the JS code
throws (a `.value` access on `undefined`); otherwise the set of 1-based
tuple IDs of the marks whose composite key matches a selected row's key.
The selected rows and the columns are taken from `selectedMarks.data[0]`
only, after the `selectedMarks.data.length === 0` short-circuit. -/
def findIdsOfMarks (allMarks : List Row) (selectedMarks : SelectedMarks) :
    Option (Finset Nat) :=
  match selectedMarks.data with
  | [] => some ∅
  | table :: _ =>
    match buildKeys table.columns (convertToListOfNamedRows table) with
    | none => none
    | some selKeys =>
      match buildKeys table.columns allMarks with
      | none => none
      | some allKeys => some (collectSelectedIds selKeys allKeys 1)

/-- A data field as this layer sees it: only its `name` property is read. -/
structure Field where
  name : String
deriving DecidableEq

/-- One entry of a marks card's encoding list: an encoding id and the field
dropped on that encoding's shelf. -/
structure Encoding where
  id : String
  field : Field
deriving DecidableEq

/-- A marks specification (marks card): its ordered encoding list. -/
structure MarksSpecification where
  encodings : List Encoding
deriving DecidableEq

/-- The visual specification: active marks card index (may be negative) and
the list of marks specifications. -/
structure VisualSpecification where
  activeMarksSpecificationIndex : Int
  marksSpecifications : List MarksSpecification
deriving DecidableEq

/-- The encoding map built by `getEncodingMap`: a JS object, modelled as an
association list in key-insertion order (keys are unique by construction). -/
abbrev EncodingMap := List (String × List Field)

/-- Object property read `encodingMap[id]`. -/
def keyLookup (m : EncodingMap) (id : String) : Option (List Field) :=
  (m.find? fun p => p.1 == id).map Prod.snd

/-- Object property write `encodingMap[id] = v`: update the existing key in
place, or append a new key at the end (JS string-key insertion order). -/
def objSet : EncodingMap → String → List Field → EncodingMap
  | [], id, v => [(id, v)]
  | p :: rest, id, v =>
    if p.1 == id then (p.1, v) :: rest else p :: objSet rest id v

/-- One iteration of the loop body of `getEncodingMap`:
`if (!encodingMap[encoding.id]) encodingMap[encoding.id] = [];` followed by
`encodingMap[encoding.id].push(encoding.field)` (an array, even empty, is
truthy, so the falsy test means the key is absent). -/
def addEncoding (m : EncodingMap) (e : Encoding) : EncodingMap :=
  let m1 := if (keyLookup m e.id).isNone then objSet m e.id [] else m
  objSet m1 e.id ((keyLookup m1 e.id).getD [] ++ [e.field])

/-- `getEncodingMap` from `src/utils.js`. `none` models the `TypeError`
thrown when the non-negative index is out of range
(`marksSpecifications[i]` is `undefined` and `.encodings` throws). -/
def getEncodingMap (visualSpec : VisualSpecification) : Option EncodingMap :=
  if visualSpec.activeMarksSpecificationIndex < 0 then some []
  else
    match visualSpec.marksSpecifications.get?
        visualSpec.activeMarksSpecificationIndex.toNat with
    | none => none
    | some marksCard => some (marksCard.encodings.foldl addEncoding [])

/-- An encoded row: the fresh `$tupleId` plus, per encoding channel, the
list of cells of the fields on that channel. -/
structure EncodedRow where
  tupleId : Nat
  channels : List (String × List Cell)
deriving DecidableEq

/-- The per-row body of the encoding loop of `getDataAndVisualSpec`: for
every channel of the encoding map (in key-insertion order, as `for...in`
iterates string keys), push `row[field.name]` for each of its fields. -/
def encodeRow (encodingMap : EncodingMap) (tupleId : Nat) (row : Row) :
    EncodedRow :=
  { tupleId := tupleId
    channels := encodingMap.map fun p => (p.1, p.2.map fun field => row.get field.name) }

/-- The encoding loop, carrying the running `tupleId` counter. -/
def encodeRowsFrom (encodingMap : EncodingMap) : List Row → Nat → List EncodedRow
  | [], _ => []
  | row :: rows, tupleId =>
    encodeRow encodingMap tupleId row :: encodeRowsFrom encodingMap rows (tupleId + 1)

/-- The encoding loop of `getDataAndVisualSpec`, with its counter starting
at 1. -/
def encodeData (encodingMap : EncodingMap) (originalData : List Row) :
    List EncodedRow :=
  encodeRowsFrom encodingMap originalData 1

/-- `getDataAndVisualSpec` from `src/utils.js`, with the two concurrently
awaited host fetches modelled by passing their results (the data pages and
the visual specification) directly; returns the original rows, the encoded
rows and the encoding map. -/
def getDataAndVisualSpec (pages : List DataTablePage)
    (visualSpec : VisualSpecification) :
    Option (List Row × List EncodedRow × EncodingMap) :=
  match getEncodingMap visualSpec with
  | none => none
  | some encodingMap =>
    some (getSummaryDataTable pages,
      encodeData encodingMap (getSummaryDataTable pages), encodingMap)

/-- An RGB color as returned by `tinycolor(...).toRgb()`; channels are
numbers, modelled exactly as rationals. -/
structure RgbColor where
  r : ℚ
  g : ℚ
  b : ℚ
deriving DecidableEq

/-- The source's `DefaultFogBlendFactor` literal, as an exact rational. For
every channel value 0..255 the floor of `(1 - factor) * channel` agrees
between IEEE-754 double arithmetic on the literal and this rational. -/
def DefaultFogBlendFactor : ℚ := 0.1850000023841858

/-- The source's `DarkBgFogBlendFactor` literal, as an exact rational. -/
def DarkBgFogBlendFactor : ℚ := 0.2750000059604645

/-- `getFogBlendFactor` from `src/utils.js`: the dark-background factor
when every channel is at most the threshold 75, else the default factor. -/
def getFogBlendFactor (color : RgbColor) : ℚ :=
  if color.r ≤ 75 ∧ color.g ≤ 75 ∧ color.b ≤ 75 then DarkBgFogBlendFactor
  else DefaultFogBlendFactor

/-- JS number-to-integer truncation (toward zero), the first step of the
`>>> 0` conversion. -/
def jsTrunc (q : ℚ) : Int :=
  if 0 ≤ q then ⌊q⌋ else -⌊-q⌋

/-- The JS `>>> 0` conversion: truncate toward zero, then reduce modulo
2^32 to an unsigned value. -/
def jsToUint32 (q : ℚ) : Nat :=
  (jsTrunc q % (2 ^ 32 : Int)).toNat

/-- The source's `CloseToWhite` clamp bound. -/
def CloseToWhite : ℚ := 245

/-- The three fogged background channels. -/
structure FoggedBackground where
  foggedBackgroundRed : Nat
  foggedBackgroundGreen : Nat
  foggedBackgroundBlue : Nat
deriving DecidableEq

/-- `computeFoggedBackgroundColor` from `src/utils.js`: when every channel
is at least `CloseToWhite`, the color is replaced by
`(CloseToWhite, CloseToWhite, CloseToWhite)`; each fogged channel is
`((1 - fogBlendFactor) * channel) >>> 0`. -/
def computeFoggedBackgroundColor (color : RgbColor) (fogBlendFactor : ℚ) :
    FoggedBackground :=
  let rgbColor :=
    if CloseToWhite ≤ color.r ∧ CloseToWhite ≤ color.g ∧ CloseToWhite ≤ color.b
    then (⟨CloseToWhite, CloseToWhite, CloseToWhite⟩ : RgbColor) else color
  { foggedBackgroundRed := jsToUint32 ((1 - fogBlendFactor) * rgbColor.r)
    foggedBackgroundGreen := jsToUint32 ((1 - fogBlendFactor) * rgbColor.g)
    foggedBackgroundBlue := jsToUint32 ((1 - fogBlendFactor) * rgbColor.b) }

/-- The per-channel clamp the claim describes (each channel independently
capped at 245), for comparison with the source's all-or-nothing clamp. -/
def computeFoggedBackgroundColorPerChannelClamp (color : RgbColor)
    (fogBlendFactor : ℚ) : FoggedBackground :=
  { foggedBackgroundRed := jsToUint32 ((1 - fogBlendFactor) * min color.r CloseToWhite)
    foggedBackgroundGreen := jsToUint32 ((1 - fogBlendFactor) * min color.g CloseToWhite)
    foggedBackgroundBlue := jsToUint32 ((1 - fogBlendFactor) * min color.b CloseToWhite) }

end GaugeChart

namespace GaugeChart

/-- Pointwise reading of a successful `buildKeys`: there is one key per row
and the i-th key is the i-th row's key. -/
theorem buildKeys_some_spec (columns : List Column) :
    ∀ (rows : List Row) (ks : List String), buildKeys columns rows = some ks →
      ks.length = rows.length ∧
        ∀ (i : Nat) (h : i < rows.length) (h' : i < ks.length),
          buildKey columns (rows.get ⟨i, h⟩) = some (ks.get ⟨i, h'⟩)
  | [], ks, h => by
    simp [buildKeys] at h
    subst h
    exact ⟨rfl, fun i hi => by simp at hi⟩
  | row :: rows, ks, h => by
    revert h
    simp only [buildKeys]
    cases hk : buildKey columns row with
    | none => intro h; exact absurd h (by simp)
    | some k =>
      cases hks : buildKeys columns rows with
      | none => intro h; exact absurd h (by simp)
      | some ks' =>
        intro h
        simp only [Option.some.injEq] at h
        subst h
        obtain ⟨hlen, hget⟩ := buildKeys_some_spec columns rows ks' hks
        refine ⟨by simp [hlen], ?_⟩
        intro i hi hi'
        match i with
        | 0 => simpa using hk
        | i + 1 =>
          simpa using hget i (by simpa using hi) (by simpa using hi')

/-- Membership reading of a successful `buildKeys`: the produced keys are
exactly the keys of the given rows. -/
theorem buildKeys_some_mem (columns : List Column) :
    ∀ (rows : List Row) (ks : List String), buildKeys columns rows = some ks →
      ∀ k, k ∈ ks ↔ ∃ row ∈ rows, buildKey columns row = some k
  | [], ks, h => by
    simp [buildKeys] at h
    subst h
    simp
  | row :: rows, ks, h => by
    revert h
    simp only [buildKeys]
    cases hk : buildKey columns row with
    | none => intro h; exact absurd h (by simp)
    | some k0 =>
      cases hks : buildKeys columns rows with
      | none => intro h; exact absurd h (by simp)
      | some ks' =>
        intro h
        simp only [Option.some.injEq] at h
        subst h
        intro k
        have ih := buildKeys_some_mem columns rows ks' hks k
        constructor
        · intro hmem
          rcases List.mem_cons.mp hmem with hk0 | hk'
          · exact ⟨row, List.mem_cons_self _ _, by rw [hk, hk0]⟩
          · obtain ⟨r, hr, hkey⟩ := ih.mp hk'
            exact ⟨r, List.mem_cons_of_mem _ hr, hkey⟩
        · rintro ⟨r, hr, hkey⟩
          rcases List.mem_cons.mp hr with rfl | hr'
          · rw [hk] at hkey
            exact List.mem_cons.mpr (Or.inl (Option.some.injEq _ _ ▸ hkey.symm))
          · exact List.mem_cons.mpr (Or.inr (ih.mpr ⟨r, hr', hkey⟩))

/-- Membership in the collector: `tid` is selected iff some position `i` of
the walked keys has `tid = start + i` and its key among the selected keys. -/
theorem mem_collectSelectedIds (selKeys : List String) :
    ∀ (ks : List String) (start tid : Nat),
      tid ∈ collectSelectedIds selKeys ks start ↔
        ∃ (i : Nat) (h : i < ks.length), tid = start + i ∧ ks.get ⟨i, h⟩ ∈ selKeys
  | [], start, tid => by simp [collectSelectedIds]
  | k :: ks, start, tid => by
    have ih := mem_collectSelectedIds selKeys ks (start + 1) tid
    constructor
    · intro hmem
      by_cases hk : k ∈ selKeys
      · simp only [collectSelectedIds, if_pos hk, Finset.mem_insert] at hmem
        rcases hmem with rfl | hmem
        · exact ⟨0, by simp, by simp, by simpa using hk⟩
        · obtain ⟨i, hi, htid, hsel⟩ := ih.mp hmem
          exact ⟨i + 1, by simpa using hi, by omega, by simpa using hsel⟩
      · simp only [collectSelectedIds, if_neg hk] at hmem
        obtain ⟨i, hi, htid, hsel⟩ := ih.mp hmem
        exact ⟨i + 1, by simpa using hi, by omega, by simpa using hsel⟩
    · rintro ⟨i, hi, rfl, hsel⟩
      match i with
      | 0 =>
        simp only [List.get] at hsel
        simp [collectSelectedIds, if_pos hsel]
      | i + 1 =>
        have hmem : start + (i + 1) ∈ collectSelectedIds selKeys ks (start + 1) :=
          ih.mpr ⟨i, by simpa using hi, by omega, by simpa using hsel⟩
        by_cases hk : k ∈ selKeys
        · simp [collectSelectedIds, if_pos hk, Finset.mem_insert, hmem]
        · simpa [collectSelectedIds, if_neg hk] using hmem

/-- C1: the code's `$tupleId` counter restarts at 1 on every page: for two
pages holding one data row each, `getSummaryDataTable` emits tuple IDs
`[1, 1]`, not the `[1, 2]` the claim requires. -/
theorem getSummaryDataTable_tupleId_resets_per_page :
    (getSummaryDataTable
      [⟨[⟨"A", 0⟩], [[⟨"a1"⟩]]⟩, ⟨[⟨"A", 0⟩], [[⟨"a2"⟩]]⟩]).map Row.tupleId
      = [1, 1] := by
  decide

/-- C2: whenever `findIdsOfMarks` returns a set, that set holds exactly the
1-based positions of the marks whose composite key (built over the first
selected table's columns) equals the composite key of at least one selected
row of that table; duplicate-key marks are therefore all included. -/
theorem findIdsOfMarks_matches_composite_keys (allMarks : List Row)
    (table : DataTablePage) (rest : List DataTablePage) (S : Finset Nat)
    (h : findIdsOfMarks allMarks ⟨table :: rest⟩ = some S) :
    ∀ tid, tid ∈ S ↔
      ∃ (i : Nat) (hi : i < allMarks.length), tid = i + 1 ∧
        ∃ k, buildKey table.columns (allMarks.get ⟨i, hi⟩) = some k ∧
          ∃ selRow ∈ convertToListOfNamedRows table,
            buildKey table.columns selRow = some k := by
  revert h
  simp only [findIdsOfMarks]
  cases hsel : buildKeys table.columns (convertToListOfNamedRows table) with
  | none => intro h; exact absurd h (by simp)
  | some selKeys =>
    cases hall : buildKeys table.columns allMarks with
    | none => intro h; exact absurd h (by simp)
    | some allKeys =>
      intro h
      simp only [Option.some.injEq] at h
      subst h
      intro tid
      obtain ⟨hlen, hget⟩ := buildKeys_some_spec table.columns allMarks allKeys hall
      constructor
      · intro hmem
        obtain ⟨i, hi, htid, hkmem⟩ :=
          (mem_collectSelectedIds selKeys allKeys 1 tid).mp hmem
        have hi' : i < allMarks.length := hlen ▸ hi
        refine ⟨i, hi', by omega, allKeys.get ⟨i, hi⟩, hget i hi' hi, ?_⟩
        obtain ⟨selRow, hsr, hsrk⟩ :=
          (buildKeys_some_mem table.columns (convertToListOfNamedRows table)
            selKeys hsel _).mp hkmem
        exact ⟨selRow, hsr, hsrk⟩
      · rintro ⟨i, hi, rfl, k, hk, selRow, hsr, hsrk⟩
        have hi' : i < allKeys.length := hlen.symm ▸ hi
        have hkeq : allKeys.get ⟨i, hi'⟩ = k := by
          have := hget i hi hi'
          rw [this] at hk
          exact Option.some.inj hk
        refine (mem_collectSelectedIds selKeys allKeys 1 (i + 1)).mpr
          ⟨i, hi', by omega, ?_⟩
        rw [hkeq]
        exact (buildKeys_some_mem table.columns (convertToListOfNamedRows table)
          selKeys hsel k).mpr ⟨selRow, hsr, hsrk⟩

/-- A mark row matching the single selected value of `exTable`. -/
def exMark1 : Row := ⟨1, [("A", some ⟨"1"⟩)]⟩

/-- A second mark row with the same composite key as `exMark1`. -/
def exMark2 : Row := ⟨2, [("A", some ⟨"1"⟩)]⟩

/-- A one-column selection table whose single row has value "1". -/
def exTable : DataTablePage := ⟨[⟨"A", 0⟩], [[⟨"1"⟩]]⟩

/-- C2 witness: with two marks sharing the selected composite key, tuple ID
2 is in the returned set and the characterization holds at that input. -/
theorem findIdsOfMarks_matches_composite_keys_witness :
    (2 : Nat) ∈ ({1, 2} : Finset Nat) ↔
      ∃ (i : Nat) (hi : i < ([exMark1, exMark2] : List Row).length), 2 = i + 1 ∧
        ∃ k, buildKey exTable.columns (([exMark1, exMark2] : List Row).get ⟨i, hi⟩)
            = some k ∧
          ∃ selRow ∈ convertToListOfNamedRows exTable,
            buildKey exTable.columns selRow = some k :=
  findIdsOfMarks_matches_composite_keys [exMark1, exMark2] exTable [] {1, 2}
    (by decide) 2

/-- C7: with an empty collection of selected data tables, `findIdsOfMarks`
short-circuits to the empty set for every mark list, including mark lists
whose column accesses would throw under a nonempty selection (second
conjunct: the same error-prone mark makes the call throw when one selected
table is present). -/
theorem findIdsOfMarks_empty_selection_shortcircuit :
    (∀ allMarks : List Row, findIdsOfMarks allMarks ⟨[]⟩ = some ∅) ∧
      findIdsOfMarks [⟨1, [("B", some ⟨"x"⟩)]⟩]
        ⟨[⟨[⟨"A", 0⟩], [[⟨"1"⟩]]⟩]⟩ = none :=
  ⟨fun _ => rfl, by decide⟩

/-- C8 counterexample: a two-table selection is not rejected: the call
succeeds and returns the result computed from the first table alone (the
second table's selected value "2" matches mark 2, yet only mark 1 is
returned, exactly as for the single-table input). -/
theorem findIdsOfMarks_multiTable_not_rejected :
    findIdsOfMarks
        [⟨1, [("A", some ⟨"1"⟩)]⟩, ⟨2, [("A", some ⟨"2"⟩)]⟩]
        ⟨[⟨[⟨"A", 0⟩], [[⟨"1"⟩]]⟩, ⟨[⟨"A", 0⟩], [[⟨"2"⟩]]⟩]⟩
      = some {1} ∧
    findIdsOfMarks
        [⟨1, [("A", some ⟨"1"⟩)]⟩, ⟨2, [("A", some ⟨"2"⟩)]⟩]
        ⟨[⟨[⟨"A", 0⟩], [[⟨"1"⟩]]⟩]⟩
      = some {1} := by
  constructor <;> decide

/-- C8 amended: `findIdsOfMarks` silently computes from the first selected
data table only; any further tables are ignored without error. -/
theorem findIdsOfMarks_uses_first_table_only (allMarks : List Row)
    (table : DataTablePage) (rest : List DataTablePage) :
    findIdsOfMarks allMarks ⟨table :: rest⟩ = findIdsOfMarks allMarks ⟨[table]⟩ :=
  rfl

/-- Writing a key makes it readable. -/
theorem keyLookup_objSet_self :
    ∀ (m : EncodingMap) (id : String) (v : List Field),
      keyLookup (objSet m id v) id = some v
  | [], id, v => by simp [keyLookup, objSet, List.find?]
  | p :: rest, id, v => by
    by_cases hp : p.1 == id
    · simp [keyLookup, objSet, hp, List.find?]
    · simp only [objSet, hp, if_false, keyLookup, List.find?, hp]
      exact keyLookup_objSet_self rest id v

/-- Writing one key leaves every other key's value unchanged. -/
theorem keyLookup_objSet_ne :
    ∀ (m : EncodingMap) (id : String) (v : List Field) (id' : String),
      id' ≠ id → keyLookup (objSet m id v) id' = keyLookup m id'
  | [], id, v, id', hne => by
    have : (id == id') = false := by
      simp only [beq_eq_false_iff_ne, ne_eq]
      exact fun h => hne h.symm
    simp [keyLookup, objSet, List.find?, this]
  | p :: rest, id, v, id', hne => by
    by_cases hp : p.1 == id
    · have hp1 : p.1 = id := by simpa using hp
      have : (p.1 == id') = false := by
        simp only [beq_eq_false_iff_ne, ne_eq, hp1]
        exact fun h => hne h.symm
      simp [keyLookup, objSet, hp, List.find?, this]
    · by_cases hp' : p.1 == id'
      · simp [keyLookup, objSet, hp, List.find?, hp']
      · simp only [objSet, hp, if_false, keyLookup, List.find?, hp']
        exact keyLookup_objSet_ne rest id v id' hne

/-- Reading after one loop iteration: the written key now holds its old
list (empty if absent) with the new field appended; other keys unchanged. -/
theorem keyLookup_addEncoding (m : EncodingMap) (e : Encoding) (id' : String) :
    keyLookup (addEncoding m e) id' =
      if id' = e.id then some ((keyLookup m e.id).getD [] ++ [e.field])
      else keyLookup m id' := by
  by_cases habs : (keyLookup m e.id).isNone
  · have hm1 : keyLookup (objSet m e.id []) e.id = some [] :=
      keyLookup_objSet_self m e.id []
    have hD : (keyLookup m e.id).getD [] = [] := by
      cases hk : keyLookup m e.id with
      | none => rfl
      | some l => rw [hk] at habs; simp at habs
    by_cases hid : id' = e.id
    · rw [if_pos hid, hid, hD]
      simp only [addEncoding, habs, if_true, hm1, Option.getD_some,
        List.nil_append]
      exact keyLookup_objSet_self (objSet m e.id []) e.id [e.field]
    · rw [if_neg hid]
      simp only [addEncoding, habs, if_true, hm1]
      rw [keyLookup_objSet_ne _ _ _ _ hid, keyLookup_objSet_ne _ _ _ _ hid]
  · by_cases hid : id' = e.id
    · rw [if_pos hid, hid]
      simp only [addEncoding, habs, if_false]
      exact keyLookup_objSet_self m e.id _
    · rw [if_neg hid]
      simp only [addEncoding, habs, if_false]
      exact keyLookup_objSet_ne m e.id _ id' hid

/-- Reading after the whole loop: a key holds its starting list followed by
the fields of every encoding with that id, in declaration order, and is
present iff it started present or some encoding carries it. -/
theorem keyLookup_foldl_addEncoding :
    ∀ (es : List Encoding) (m : EncodingMap) (id : String),
      keyLookup (es.foldl addEncoding m) id =
        if (keyLookup m id).isSome = true ∨ ∃ e ∈ es, e.id = id
        then some ((keyLookup m id).getD [] ++
          (es.filter (fun e => e.id == id)).map Encoding.field)
        else none
  | [], m, id => by
    cases hk : keyLookup m id with
    | none => simp [hk]
    | some l => simp [hk]
  | e :: es, m, id => by
    rw [List.foldl_cons, keyLookup_foldl_addEncoding es (addEncoding m e) id,
      keyLookup_addEncoding m e id]
    by_cases hid : id = e.id
    · have hbeq : (e.id == id) = true := by simp [hid]
      rw [if_pos hid,
        if_pos (Or.inl (by simp)),
        if_pos (Or.inr ⟨e, List.mem_cons_self _ _, hid.symm⟩)]
      simp only [Option.getD_some, List.filter_cons, hbeq, if_true,
        List.map_cons, hid]
      simp [List.append_assoc]
    · have hbeq : (e.id == id) = false := by
        simp only [beq_eq_false_iff_ne, ne_eq]
        exact fun h => hid h.symm
      rw [if_neg hid]
      have hfilter :
          (e :: es).filter (fun x => x.id == id) = es.filter (fun x => x.id == id) := by
        simp [List.filter_cons, hbeq]
      rw [hfilter]
      have hcond : ((keyLookup m id).isSome = true ∨ ∃ x ∈ e :: es, x.id = id) ↔
          ((keyLookup m id).isSome = true ∨ ∃ x ∈ es, x.id = id) := by
        constructor
        · rintro (h | ⟨x, hx, hxid⟩)
          · exact Or.inl h
          · rcases List.mem_cons.mp hx with rfl | hx'
            · exact absurd hxid.symm hid
            · exact Or.inr ⟨x, hx', hxid⟩
        · rintro (h | ⟨x, hx, hxid⟩)
          · exact Or.inl h
          · exact Or.inr ⟨x, List.mem_cons_of_mem _ hx, hxid⟩
      by_cases hc : (keyLookup m id).isSome = true ∨ ∃ x ∈ es, x.id = id
      · rw [if_pos hc, if_pos (hcond.mpr hc)]
      · rw [if_neg hc, if_neg (fun h => hc (hcond.mp h))]

/-- C5: a negative active marks specification index yields the empty
encoding map, whatever the marks specification list holds. -/
theorem getEncodingMap_negative_index (visualSpec : VisualSpecification)
    (h : visualSpec.activeMarksSpecificationIndex < 0) :
    getEncodingMap visualSpec = some [] := by
  simp [getEncodingMap, h]

/-- C5 witness: index -1 with a nonempty marks specification list still
yields the empty map. -/
theorem getEncodingMap_negative_index_witness :
    getEncodingMap ⟨-1, [⟨[⟨"edge", ⟨"F"⟩⟩]⟩]⟩ = some [] :=
  getEncodingMap_negative_index ⟨-1, [⟨[⟨"edge", ⟨"F"⟩⟩]⟩]⟩ (by decide)

/-- C6: with a non-negative in-range index, the returned map has a key
exactly for the ids occurring in the active card's encoding list, and that
key's list is the fields of all encodings with that id, in declaration
order. -/
theorem getEncodingMap_active_card (visualSpec : VisualSpecification)
    (marksCard : MarksSpecification)
    (h0 : 0 ≤ visualSpec.activeMarksSpecificationIndex)
    (h1 : visualSpec.marksSpecifications.get?
      visualSpec.activeMarksSpecificationIndex.toNat = some marksCard) :
    ∃ m, getEncodingMap visualSpec = some m ∧
      (∀ id, (∃ l, keyLookup m id = some l) ↔ ∃ e ∈ marksCard.encodings, e.id = id) ∧
      (∀ id l, keyLookup m id = some l →
        l = (marksCard.encodings.filter (fun e => e.id == id)).map Encoding.field) := by
  have hneg : ¬ visualSpec.activeMarksSpecificationIndex < 0 := not_lt.mpr h0
  refine ⟨marksCard.encodings.foldl addEncoding [], ?_, ?_, ?_⟩
  · unfold getEncodingMap
    rw [if_neg hneg, h1]
  · intro id
    rw [keyLookup_foldl_addEncoding]
    have hnil : keyLookup [] id = none := rfl
    by_cases hc : ∃ e ∈ marksCard.encodings, e.id = id
    · simp only [hnil, Option.isSome_none, Bool.false_eq_true, false_or,
        if_pos hc]
      exact ⟨fun _ => hc, fun _ => ⟨_, rfl⟩⟩
    · simp only [hnil, Option.isSome_none, Bool.false_eq_true, false_or,
        if_neg hc]
      exact ⟨fun ⟨l, hl⟩ => absurd hl (by simp), fun h => absurd h hc⟩
  · intro id l hl
    rw [keyLookup_foldl_addEncoding] at hl
    have hnil : keyLookup [] id = none := rfl
    by_cases hc : ∃ e ∈ marksCard.encodings, e.id = id
    · simp only [hnil, Option.isSome_none, Bool.false_eq_true, false_or,
        if_pos hc, Option.getD_none, List.nil_append, Option.some.injEq] at hl
      exact hl.symm
    · simp [hnil, if_neg hc] at hl

/-- A one-card visual specification with duplicate "edge" encodings. -/
def exVisualSpec : VisualSpecification :=
  ⟨0, [⟨[⟨"edge", ⟨"F1"⟩⟩, ⟨"edge", ⟨"F2"⟩⟩, ⟨"level", ⟨"F3"⟩⟩]⟩]⟩

/-- The marks card of `exVisualSpec`. -/
def exMarksCard : MarksSpecification :=
  ⟨[⟨"edge", ⟨"F1"⟩⟩, ⟨"edge", ⟨"F2"⟩⟩, ⟨"level", ⟨"F3"⟩⟩]⟩

/-- C6 witness: the duplicate-id card at index 0 satisfies the key and
order characterization. -/
theorem getEncodingMap_active_card_witness :
    ∃ m, getEncodingMap exVisualSpec = some m ∧
      (∀ id, (∃ l, keyLookup m id = some l) ↔
        ∃ e ∈ exMarksCard.encodings, e.id = id) ∧
      (∀ id l, keyLookup m id = some l →
        l = (exMarksCard.encodings.filter (fun e => e.id == id)).map
          Encoding.field) :=
  getEncodingMap_active_card exVisualSpec exMarksCard (by decide) (by decide)

/-- Positional reading of the encoding loop: the i-th output is the i-th
input row encoded with counter value `start + i`. -/
theorem encodeRowsFrom_get? (encodingMap : EncodingMap) :
    ∀ (rows : List Row) (start i : Nat),
      (encodeRowsFrom encodingMap rows start).get? i =
        (rows.get? i).map fun row => encodeRow encodingMap (start + i) row
  | [], start, i => by simp [encodeRowsFrom]
  | row :: rows, start, 0 => by simp [encodeRowsFrom]
  | row :: rows, start, i + 1 => by
    simp only [encodeRowsFrom, List.get?_cons_succ]
    rw [encodeRowsFrom_get? encodingMap rows (start + 1) i]
    have : start + 1 + i = start + (i + 1) := by omega
    rw [this]

/-- C3 counterexample: the encoder does not carry the input row's Tuple ID:
a single row with `$tupleId = 7` is encoded with Tuple ID 1. -/
theorem encodeData_drops_input_tupleId :
    (encodeData [] [(⟨7, []⟩ : Row)]).map EncodedRow.tupleId ≠
      [(⟨7, []⟩ : Row)].map Row.tupleId := by
  decide

/-- C3 amended: the encoding loop emits one encoded row per input row in
input order, and the i-th encoded row carries Tuple ID `i + 1` (its 1-based
position), which matches the i-th input row's Tuple ID exactly when that ID
is the row's 1-based position. -/
theorem encodeData_positional (encodingMap : EncodingMap) (rows : List Row) :
    ∀ i : Nat, (encodeData encodingMap rows).get? i =
      (rows.get? i).map fun row => encodeRow encodingMap (i + 1) row := by
  intro i
  rw [encodeData, encodeRowsFrom_get? encodingMap rows 1 i, Nat.add_comm 1 i]

/-- C4: for every channel entry of the encoding map, the encoded row holds
an entry of that name whose list has one cell per assigned field, the j-th
cell being `row[fields[j].name]` (`none` models the `undefined` entry when
the field name is absent from the row). -/
theorem encodeRow_channel_lists (encodingMap : EncodingMap) (tupleId : Nat)
    (row : Row) (name : String) (fields : List Field)
    (h : (name, fields) ∈ encodingMap) :
    ∃ entry ∈ (encodeRow encodingMap tupleId row).channels,
      entry.1 = name ∧ entry.2.length = fields.length ∧
        ∀ j : Nat, entry.2.get? j =
          (fields.get? j).map fun field => row.get field.name := by
  refine ⟨(name, fields.map fun field => row.get field.name), ?_, rfl, by simp, ?_⟩
  · exact List.mem_map_of_mem (fun p => (p.1, p.2.map fun field => row.get field.name)) h
  · intro j
    simp [List.get?_map]

/-- An encoding map putting fields "S" and "T" on the "edge" channel. -/
def exEncodingMap : EncodingMap := [("edge", [⟨"S"⟩, ⟨"T"⟩])]

/-- A row holding only field "S", so "T" reads as `undefined`. -/
def exRowForEncode : Row := ⟨1, [("S", some ⟨"10"⟩)]⟩

/-- C4 witness: at the concrete map and row, the "edge" entry has length 2
and its cells are the row's "S" value and `none` for the missing "T". -/
theorem encodeRow_channel_lists_witness :
    ∃ entry ∈ (encodeRow exEncodingMap 1 exRowForEncode).channels,
      entry.1 = "edge" ∧ entry.2.length = ([⟨"S"⟩, ⟨"T"⟩] : List Field).length ∧
        ∀ j : Nat, entry.2.get? j =
          (([⟨"S"⟩, ⟨"T"⟩] : List Field).get? j).map fun field =>
            exRowForEncode.get field.name :=
  encodeRow_channel_lists exEncodingMap 1 exRowForEncode "edge" [⟨"S"⟩, ⟨"T"⟩]
    (by decide)

/-- C9: the blend factor is the dark-background constant exactly when all
three channels are at most 75 and the default constant otherwise; at the
boundary, all channels 75 gives the dark case and a channel 76 the default
case. -/
theorem getFogBlendFactor_threshold :
    (∀ color : RgbColor, getFogBlendFactor color = DarkBgFogBlendFactor ↔
      color.r ≤ 75 ∧ color.g ≤ 75 ∧ color.b ≤ 75) ∧
    (∀ color : RgbColor, getFogBlendFactor color = DefaultFogBlendFactor ↔
      ¬(color.r ≤ 75 ∧ color.g ≤ 75 ∧ color.b ≤ 75)) ∧
    getFogBlendFactor ⟨75, 75, 75⟩ = DarkBgFogBlendFactor ∧
    getFogBlendFactor ⟨76, 75, 75⟩ = DefaultFogBlendFactor := by
  have hne : DarkBgFogBlendFactor ≠ DefaultFogBlendFactor := by
    norm_num [DarkBgFogBlendFactor, DefaultFogBlendFactor]
  refine ⟨fun color => ?_, fun color => ?_, by simp [getFogBlendFactor],
    by norm_num [getFogBlendFactor]⟩
  · by_cases h : color.r ≤ 75 ∧ color.g ≤ 75 ∧ color.b ≤ 75
    · simp [getFogBlendFactor, h]
    · simp [getFogBlendFactor, h, hne.symm]
  · by_cases h : color.r ≤ 75 ∧ color.g ≤ 75 ∧ color.b ≤ 75
    · simp [getFogBlendFactor, h, hne]
    · simp [getFogBlendFactor, h]

/-- C10 counterexample: at background (255, 0, 0) the source does not
clamp (only backgrounds with ALL channels at least 245 are clamped), so
its fogged background differs from the claim's per-channel-clamped one:
red is trunc(0.8149999976158142 * 255) = 207, not
trunc(0.8149999976158142 * 245) = 199. -/
theorem computeFoggedBackgroundColor_not_perChannelClamp :
    computeFoggedBackgroundColor ⟨255, 0, 0⟩ DefaultFogBlendFactor ≠
      computeFoggedBackgroundColorPerChannelClamp ⟨255, 0, 0⟩
        DefaultFogBlendFactor := by
  have hfloor207 : jsTrunc ((1 - DefaultFogBlendFactor) * 255) = 207 := by
    rw [jsTrunc, if_pos (by norm_num [DefaultFogBlendFactor]),
      Int.floor_eq_iff]
    norm_num [DefaultFogBlendFactor]
  have hfloor199 : jsTrunc ((1 - DefaultFogBlendFactor) * 245) = 199 := by
    rw [jsTrunc, if_pos (by norm_num [DefaultFogBlendFactor]),
      Int.floor_eq_iff]
    norm_num [DefaultFogBlendFactor]
  have hred : (computeFoggedBackgroundColor ⟨255, 0, 0⟩
      DefaultFogBlendFactor).foggedBackgroundRed = 207 := by
    have hcond : ¬(CloseToWhite ≤ (255 : ℚ) ∧ CloseToWhite ≤ (0 : ℚ) ∧
        CloseToWhite ≤ (0 : ℚ)) := by norm_num [CloseToWhite]
    simp only [computeFoggedBackgroundColor, hcond, if_neg,
      jsToUint32, if_false]
    rw [hfloor207]
    rfl
  have hred' : (computeFoggedBackgroundColorPerChannelClamp ⟨255, 0, 0⟩
      DefaultFogBlendFactor).foggedBackgroundRed = 199 := by
    have hmin : min (255 : ℚ) CloseToWhite = 245 := by norm_num [CloseToWhite]
    simp only [computeFoggedBackgroundColorPerChannelClamp, jsToUint32, hmin]
    rw [hfloor199]
    rfl
  intro heq
  rw [heq, hred'] at hred
  exact absurd hred (by norm_num)

/-- C10 amended: the clamp is all-or-nothing: when every channel is at
least 245 the background is fogged as (245, 245, 245), otherwise the
channels are used unclamped; each fogged channel is the truncation of
(1 - blendFactor) times the channel so used. In particular an all-255
background is treated as (245, 245, 245), but a single channel of 255 is
not clamped unless the other two are also at least 245. -/
theorem computeFoggedBackgroundColor_clamp_all_or_nothing (color : RgbColor)
    (fogBlendFactor : ℚ) :
    (computeFoggedBackgroundColor color fogBlendFactor =
      if 245 ≤ color.r ∧ 245 ≤ color.g ∧ 245 ≤ color.b
      then ⟨jsToUint32 ((1 - fogBlendFactor) * 245),
        jsToUint32 ((1 - fogBlendFactor) * 245),
        jsToUint32 ((1 - fogBlendFactor) * 245)⟩
      else ⟨jsToUint32 ((1 - fogBlendFactor) * color.r),
        jsToUint32 ((1 - fogBlendFactor) * color.g),
        jsToUint32 ((1 - fogBlendFactor) * color.b)⟩) ∧
    computeFoggedBackgroundColor ⟨255, 255, 255⟩ fogBlendFactor =
      computeFoggedBackgroundColor ⟨245, 245, 245⟩ fogBlendFactor := by
  constructor
  · by_cases h : 245 ≤ color.r ∧ 245 ≤ color.g ∧ 245 ≤ color.b
    · simp [computeFoggedBackgroundColor, CloseToWhite, h]
    · simp [computeFoggedBackgroundColor, CloseToWhite, h]
  · norm_num [computeFoggedBackgroundColor, CloseToWhite]

end GaugeChart
